import Mathlib

/-!
# Verification of the QLever join engine and local vocabulary

Shallow embedding of the `Join` operation (src/unnamed/part_000, a header of
declarations) and `LocalVocab` (src/src/engine/LocalVocab.h).  Function bodies
that are present in the headers (`knownEmptyResult`, `getSizeEstimateBeforeLimit`,
`size`, `mergeWith`) are translated directly; for members whose implementations
are not part of the provided sources, the definitions below are modelled from
the specification (spec.md) and carry a doc comment saying so.
-/

namespace QLever

/-! ## Row tables

A row table (`IdTable`) is a batch of equal-width rows of integer-encoded
values (`Id`).  Join algorithms read rows and compare them on a join column. -/

abbrev Id := Nat

abbrev Row := List Id

abbrev IdTable := List Row

/-- The key of a row at join column `jc` (out-of-range reads default to 0;
well-formed tables in the theorems always have `jc` in range). -/
def getKey (jc : Nat) (r : Row) : Nat := r.getD jc 0

/-- Modelled from the spec: `Join::addCombinedRowToIdTable` combines a left row
and a right row into one output row, copying the left columns first and then
the right columns excluding the shared join column (spec section 4.3, "Row
combination"). -/
def combineRows (jc2 : Nat) (ra rb : Row) : Row := ra ++ rb.eraseIdx jc2

/-- The standard relational equi-join of `A` and `B` on columns `jc1`, `jc2`
(spec-side definition, from the spec's words: every pair of rows with equal
keys contributes one combined row; nested-loop formulation). -/
def equiJoin (jc1 jc2 : Nat) (A B : IdTable) : IdTable :=
  A.flatMap fun ra =>
    B.filterMap fun rb =>
      if getKey jc1 ra = getKey jc2 rb then some (combineRows jc2 ra rb) else none

/-- A table is sorted on column `jc` when the keys of adjacent rows are
non-decreasing. -/
def sortedOn (jc : Nat) : IdTable → Bool
  | [] => true
  | [_] => true
  | r :: s :: rest => decide (getKey jc r ≤ getKey jc s) && sortedOn jc (s :: rest)

/-! ## Hash join

Modelled from the spec (section 4.3 step 4 and the contract of the static
`Join::hashJoin` declared at part_000 lines 109-110): build a map from key to
the list of rows of the smaller input, then probe it with the larger input in
its original order, emitting every cross-product match. -/

/-- Modelled from the spec: the hash map built over the build side, from key to
the rows carrying that key, in input order. -/
def buildHashMap (jc : Nat) : IdTable → Id → IdTable
  | [], _ => []
  | r :: rs, k =>
      if getKey jc r = k then r :: buildHashMap jc rs k else buildHashMap jc rs k

/-- Modelled from the spec: `Join::hashJoin`.  The smaller input (by row count)
is hash-built, the larger is streamed as the probe side in its original order;
output rows always carry the left table's columns first. -/
def hashJoin (jc1 jc2 : Nat) (A B : IdTable) : IdTable :=
  if A.length ≤ B.length then
    -- build on A, probe with B
    B.flatMap fun rb => (buildHashMap jc1 A (getKey jc2 rb)).map fun ra => combineRows jc2 ra rb
  else
    -- build on B, probe with A
    A.flatMap fun ra => (buildHashMap jc2 B (getKey jc1 ra)).map fun rb => combineRows jc2 ra rb

/-! ## Merge join

Modelled from the spec (section 4.3 step 3 and the doc comment of `Join::join`
at part_000 lines 78-94): both inputs sorted on the join column; for each
distinct key, the contiguous equal-key run of `A` is matched against the run of
`B` and the full cross product of the two runs is emitted, preserving each
side's row order within its run. -/

/-- Modelled from the spec: the sorted merge join. -/
def mergeJoin (jc1 jc2 : Nat) : IdTable → IdTable → IdTable
  | [], _ => []
  | _ :: _, [] => []
  | a :: as, b :: bs =>
    if hl : getKey jc1 a < getKey jc2 b then mergeJoin jc1 jc2 as (b :: bs)
    else if hg : getKey jc2 b < getKey jc1 a then mergeJoin jc1 jc2 (a :: as) bs
    else
      ((a :: as).takeWhile fun r => getKey jc1 r == getKey jc1 a).flatMap
          (fun ra => ((b :: bs).takeWhile fun r => getKey jc2 r == getKey jc1 a).map
            fun rb => combineRows jc2 ra rb)
        ++ mergeJoin jc1 jc2 ((a :: as).dropWhile fun r => getKey jc1 r == getKey jc1 a)
            ((b :: bs).dropWhile fun r => getKey jc2 r == getKey jc1 a)
termination_by A B => A.length + B.length
decreasing_by
  · simp
  · simp
  · have h1 : ((a :: as).dropWhile fun r => getKey jc1 r == getKey jc1 a).length ≤ as.length := by
      rw [List.dropWhile_cons_of_pos (by simp)]
      exact (List.dropWhile_sublist _).length_le
    have hb : (fun r => getKey jc2 r == getKey jc1 a) b = true := by
      show (getKey jc2 b == getKey jc1 a) = true
      simp only [beq_iff_eq]
      omega
    have h2 : ((b :: bs).dropWhile fun r => getKey jc2 r == getKey jc1 a).length ≤ bs.length := by
      rw [List.dropWhile_cons_of_pos (p := fun r => getKey jc2 r == getKey jc1 a) hb]
      exact (List.dropWhile_sublist _).length_le
    simp only [List.length_cons]
    omega

/-- The inner row matcher of `equiJoin`. -/
def rowMatcher (jc1 jc2 : Nat) (ra rb : Row) : Option Row :=
  if getKey jc1 ra = getKey jc2 rb then some (combineRows jc2 ra rb) else none

/-! ## Galloping join

Modelled from the spec (section 4.3 step 3): when one side has long
non-matching stretches, the join advances through it in exponentially growing
strides to locate the next matching key, falling back to a linear scan near the
boundary. -/

/-- Modelled from the spec: galloping search.  Drops the maximal prefix of
rows with key below `k` from a sorted table: probes the row `stride` positions
ahead; while its key is still below `k` the stride region is skipped and the
stride doubled, otherwise the boundary is located by a linear scan
(`dropWhile`). -/
def gallopDropLess (jc k : Nat) (T : IdTable) (stride : Nat) : IdTable :=
  match h : T.drop stride with
  | [] => T.dropWhile fun r => decide (getKey jc r < k)
  | r :: _ =>
    if getKey jc r < k then gallopDropLess jc k (T.drop (stride + 1)) (stride * 2)
    else T.dropWhile fun r => decide (getKey jc r < k)
termination_by T.length
decreasing_by
  have hlen : stride < T.length := by
    have := congrArg List.length h
    simp only [List.length_drop, List.length_cons] at this
    omega
  simp only [List.length_drop]
  omega

/-- Modelled from the spec: the galloping variant of the merge join.  Run
matching and cross-product emission are as in the merge join, but when the
right side's key is behind the left side's, the right side is advanced by
galloping search instead of one row at a time. -/
def gallopJoin (jc1 jc2 : Nat) : IdTable → IdTable → IdTable
  | [], _ => []
  | _ :: _, [] => []
  | a :: as, b :: bs =>
    if hl : getKey jc1 a < getKey jc2 b then gallopJoin jc1 jc2 as (b :: bs)
    else if hg : getKey jc2 b < getKey jc1 a then
      gallopJoin jc1 jc2 (a :: as) (gallopDropLess jc2 (getKey jc1 a) (b :: bs) 1)
    else
      ((a :: as).takeWhile fun r => getKey jc1 r == getKey jc1 a).flatMap
          (fun ra => ((b :: bs).takeWhile fun r => getKey jc2 r == getKey jc1 a).map
            fun rb => combineRows jc2 ra rb)
        ++ gallopJoin jc1 jc2 ((a :: as).dropWhile fun r => getKey jc1 r == getKey jc1 a)
            ((b :: bs).dropWhile fun r => getKey jc2 r == getKey jc1 a)
termination_by A B => A.length + B.length
decreasing_by
  · simp
  · have hle : ∀ (n : Nat) (T : IdTable) (s : Nat), T.length = n →
        (gallopDropLess jc2 (getKey jc1 a) T s).length ≤ T.length := by
      intro n
      induction n using Nat.strong_induction_on with
      | _ n ih =>
        intro T s hn
        rw [gallopDropLess]
        split
        · exact (List.dropWhile_sublist _).length_le
        · rename_i r l hdrop
          split
          · have hslt : s < T.length := by
              have := congrArg List.length hdrop
              simp only [List.length_drop, List.length_cons] at this
              omega
            refine le_trans (ih (T.drop (s + 1)).length ?_ _ _ rfl) ?_
            · simp only [List.length_drop]
              omega
            · simp only [List.length_drop]
              omega
          · exact (List.dropWhile_sublist _).length_le
    have hlt : (gallopDropLess jc2 (getKey jc1 a) (b :: bs) 1).length ≤ bs.length := by
      rw [gallopDropLess]
      split
      · rw [List.dropWhile_cons_of_pos (by simpa using hg)]
        exact (List.dropWhile_sublist _).length_le
      · rename_i r l hdrop
        split
        · refine le_trans (hle _ _ _ rfl) ?_
          simp only [List.length_drop, List.length_cons]
          omega
        · rw [List.dropWhile_cons_of_pos (by simpa using hg)]
          exact (List.dropWhile_sublist _).length_le
    simp only [List.length_cons]
    omega
  · have h1 : ((a :: as).dropWhile fun r => getKey jc1 r == getKey jc1 a).length ≤ as.length := by
      rw [List.dropWhile_cons_of_pos (by simp)]
      exact (List.dropWhile_sublist _).length_le
    have hb : (fun r => getKey jc2 r == getKey jc1 a) b = true := by
      show (getKey jc2 b == getKey jc1 a) = true
      simp only [beq_iff_eq]
      omega
    have h2 : ((b :: bs).dropWhile fun r => getKey jc2 r == getKey jc1 a).length ≤ bs.length := by
      rw [List.dropWhile_cons_of_pos (p := fun r => getKey jc2 r == getKey jc1 a) hb]
      exact (List.dropWhile_sublist _).length_le
    simp only [List.length_cons]
    omega

/-! ## Algorithm selection and the Join operation -/

/-- Modelled from the spec: the galloping crossover is a tuning heuristic
without a documented formula (spec section 9); it is a fixed positive
constant. -/
def gallopThreshold : Nat := 1000

/-- Modelled from the spec: `Join::join` (part_000 lines 78-94) joins two
sorted tables, deciding between the galloping join and the standard merge
join. -/
def joinSorted (jc1 jc2 : Nat) (A B : IdTable) : IdTable :=
  if A.length * gallopThreshold < B.length then gallopJoin jc1 jc2 A B
  else mergeJoin jc1 jc2 A B

/-- Modelled from the spec: `Join::computeResultForTwoIndexScans` (part_000
line 123) advances both scans' sorted streams in lock-step, merging on the
shared key; on materialized streams this is the sorted merge join. -/
def computeResultForTwoIndexScans (jc1 jc2 : Nat) (scanL scanR : IdTable) : IdTable :=
  mergeJoin jc1 jc2 scanL scanR

/-- Modelled from the spec: `Join::computeResultForIndexScanAndIdTable`
(part_000 lines 129-133) stream-merges the materialized table against the
scan's sorted output, laying out the scan's columns on the side given by
`scanIsLeft`. -/
def computeResultForIndexScanAndIdTable (scanIsLeft : Bool) (idTable : IdTable)
    (joinColTable : Nat) (scan : IdTable) (joinColScan : Nat) : IdTable :=
  if scanIsLeft then mergeJoin joinColScan joinColTable scan idTable
  else mergeJoin joinColTable joinColScan idTable scan

/-- A child of the `Join` operation: its (materialized) result table together
with the statically known facts the selection logic consults. -/
structure Child where
  table : IdTable
  knownEmpty : Bool
  isIndexScan : Bool
  sortedOnJoinCol : Bool

/-- `Join::knownEmptyResult` (part_000 lines 66-68): the join is known empty
iff either child is known empty. -/
def knownEmptyResult (l r : Child) : Bool := l.knownEmpty || r.knownEmpty

/-- The algorithm paths of `Join::computeResult` (spec section 4.3). -/
inductive JoinAlgorithm : Type
  | twoIndexScans
  | indexScanAndIdTable
  | mergeOrGallop
  | hash
deriving DecidableEq, Repr

/-- Modelled from the spec: `Join::computeResult` (part_000 line 116): the
known-empty fast path short-circuits to an empty result (returning no
algorithm path), otherwise one of the four algorithm paths is selected per
spec section 4.3. -/
def computeResult (l r : Child) (jc1 jc2 : Nat) : IdTable × Option JoinAlgorithm :=
  if knownEmptyResult l r then ([], none)
  else if l.isIndexScan && r.isIndexScan then
    (computeResultForTwoIndexScans jc1 jc2 l.table r.table, some JoinAlgorithm.twoIndexScans)
  else if l.isIndexScan then
    (computeResultForIndexScanAndIdTable true r.table jc2 l.table jc1,
      some JoinAlgorithm.indexScanAndIdTable)
  else if r.isIndexScan then
    (computeResultForIndexScanAndIdTable false l.table jc1 r.table jc2,
      some JoinAlgorithm.indexScanAndIdTable)
  else if l.sortedOnJoinCol && r.sortedOnJoinCol then
    (joinSorted jc1 jc2 l.table r.table, some JoinAlgorithm.mergeOrGallop)
  else (hashJoin jc1 jc2 l.table r.table, some JoinAlgorithm.hash)

/-! ## Sortedness of the hash join output -/

/-- All rows of the table have exactly `w` columns. -/
def hasWidth (w : Nat) (T : IdTable) : Bool := T.all fun r => r.length == w

/-- The probe side of the hash join (always the larger input, matching the
build-side selection of `hashJoin`) is sorted on its join column. -/
def probeSideSorted (jc1 jc2 : Nat) (A B : IdTable) : Bool :=
  if A.length ≤ B.length then sortedOn jc2 B else sortedOn jc1 A

/-! ## Size estimation

`Join::getSizeEstimateBeforeLimit` (part_000 lines 55-61) lazily computes and
caches the size estimate; the computation itself
(`Join::computeSizeEstimateAndMultiplicities`, declared at line 70) is
modelled from the spec. -/

/-- The estimation inputs contributed by one child: its row-count estimate and
its multiplicity on the join column. -/
structure ChildEstimates where
  rows : ℚ
  mult : ℚ

/-- The cached estimation state of a `Join` (fields `_sizeEstimateComputed`
and `_sizeEstimate` of part_000 lines 26-27). -/
structure JoinState where
  sizeEstimateComputed : Bool
  sizeEstimate : ℚ

/-- Modelled from the spec: the row-count estimate of
`Join::computeSizeEstimateAndMultiplicities` is "the product of the two child
row-count estimates divided by the larger of the two join multiplicities ...,
with a floor of one row when either side is non-empty" (spec section 4.3).
Only the size estimate is modelled; the multiplicity vector is not needed for
the claims. -/
def computeSizeEstimate (l r : ChildEstimates) : ℚ :=
  if l.rows ≠ 0 ∨ r.rows ≠ 0 then max 1 (l.rows * r.rows / max l.mult r.mult)
  else 0

/-- Modelled from the spec: the state update of
`Join::computeSizeEstimateAndMultiplicities`. -/
def computeSizeEstimateAndMultiplicities (j : JoinState) (l r : ChildEstimates) : JoinState :=
  { j with sizeEstimate := computeSizeEstimate l r }

/-- `Join::getSizeEstimateBeforeLimit` (part_000 lines 55-61): on the first
request the estimate is computed and the computed flag set; afterwards the
cached value is returned. -/
def getSizeEstimateBeforeLimit (j : JoinState) (l r : ChildEstimates) : JoinState × ℚ :=
  if !j.sizeEstimateComputed then
    let j1 := computeSizeEstimateAndMultiplicities j l r
    let j2 := { j1 with sizeEstimateComputed := true }
    (j2, j2.sizeEstimate)
  else (j, j.sizeEstimate)

/-! ## Local vocabulary and the memory-limited value set

`LocalVocab` (src/src/engine/LocalVocab.h).  The sharing of word sets between
vocabularies (shared pointers in the source) is embedded through a store of
word sets addressed by id; a vocabulary holds the id of its primary set and
the ids of its "other" sets. -/

/-- A vocabulary value (`LiteralOrIri`): identity is by content. -/
abbrev Word := String

/-- Modelled from the spec: `IriSizeGetter` (LocalVocab.h lines 35-41), the
dynamic memory usage of a value in bytes. -/
def wordSize (w : Word) : Nat := w.length

abbrev SetId := Nat

/-- The shared state behind the word-set pointers: the contents of every
allocated word set, and the remaining shared memory budget in bytes
(`AllocationMemoryLeftThreadsafe`, LocalVocab.h line 49). -/
structure VocabStore where
  sets : List (List Word)
  memLeft : Nat
deriving DecidableEq, Repr

/-- The contents of the word set with id `sid`. -/
def getSet (st : VocabStore) (sid : SetId) : List Word := st.sets.getD sid []

/-- A local vocabulary (LocalVocab.h lines 50-57): one mutable primary word
set plus shared read-only "other" word sets. -/
structure LocalVocab where
  primary : SetId
  others : List SetId
deriving DecidableEq, Repr

/-- A `LocalVocabIndex` is a stable address of a word inside its owning set:
the owning set's id and the position within it. -/
abbrev LocalVocabIndex := SetId × Nat

/-- All set ids of the vocabulary are allocated in the store. -/
abbrev wfVocab (st : VocabStore) (V : LocalVocab) : Prop :=
  V.primary < st.sets.length ∧ ∀ s ∈ V.others, s < st.sets.length

/-- First position of `w`, in insertion order. -/
def firstIdxOf (w : Word) : List Word → Option Nat
  | [] => none
  | x :: xs => if x = w then some 0 else (firstIdxOf w xs).map (· + 1)

/-- Modelled from the spec: `intern` on the memory-limited value set
(`CustomHashSetWithMemoryLimit`, LocalVocab.h lines 47-50; spec section 4.1):
an equal value returns its existing index; otherwise the value's dynamic byte
footprint is charged against the shared budget and the value is inserted; if
the charge would exceed the remaining budget, the insertion fails with an
out-of-memory error and the set is left unmodified. -/
def setIntern (st : VocabStore) (sid : SetId) (w : Word) :
    VocabStore × Except Unit Nat :=
  match firstIdxOf w (getSet st sid) with
  | some i => (st, Except.ok i)
  | none =>
      if wordSize w ≤ st.memLeft then
        ({ sets := st.sets.set sid (getSet st sid ++ [w]),
           memLeft := st.memLeft - wordSize w },
          Except.ok (getSet st sid).length)
      else (st, Except.error ())

/-- `LocalVocab::getIndexAndAddIfNotContained` (declared LocalVocab.h lines
90-91); modelled from the spec: delegates to the primary set only (spec
section 4.2, `internOrReuse`). -/
def getIndexAndAddIfNotContained (st : VocabStore) (V : LocalVocab) (w : Word) :
    VocabStore × Except Unit LocalVocabIndex :=
  match setIntern st V.primary w with
  | (st1, Except.ok i) => (st1, Except.ok (V.primary, i))
  | (st1, Except.error e) => (st1, Except.error e)

/-- `LocalVocab::getIndexOrNullopt` (declared LocalVocab.h lines 95-96);
modelled from the spec: searches the primary set only (spec section 4.2,
`lookup`). -/
def getIndexOrNullopt (st : VocabStore) (V : LocalVocab) (w : Word) :
    Option LocalVocabIndex :=
  (firstIdxOf w (getSet st V.primary)).map fun i => (V.primary, i)

/-- `LocalVocab::size` (LocalVocab.h lines 100-106): the primary set's size
plus the size of every other word set. -/
def LocalVocab.size (st : VocabStore) (V : LocalVocab) : Nat :=
  V.others.foldl (fun acc s => acc + (getSet st s).length) (getSet st V.primary).length

/-- Resolution of a local index: defined when the index's owning set belongs
to the vocabulary (primary or any "other" set) and the position is within that
set. -/
def resolve (st : VocabStore) (V : LocalVocab) (idx : LocalVocabIndex) : Option Word :=
  if idx.1 = V.primary ∨ idx.1 ∈ V.others then (getSet st idx.1)[idx.2]? else none

/-- Allocation of a fresh empty word set (`std::make_shared<Set>`). -/
def freshSet (st : VocabStore) : VocabStore × SetId :=
  ({ st with sets := st.sets ++ [[]] }, st.sets.length)

/-- Modelled from the spec: `LocalVocab::clone` (declared LocalVocab.h line
80): the clone shares all current "other" sets, re-exposes the old primary set
as an additional shared "other" set, and gets a fresh empty primary set (spec
section 4.2). -/
def clone (st : VocabStore) (V : LocalVocab) : VocabStore × LocalVocab :=
  ((freshSet st).1, { primary := (freshSet st).2, others := V.others ++ [V.primary] })

/-- Modelled from the spec: `LocalVocab::merge` (declared LocalVocab.h line
116): a new vocabulary with a fresh empty primary set whose "other" sets are,
in argument order, every other set followed by the primary set of each input
(spec section 4.2). -/
def merge (st : VocabStore) (vs : List LocalVocab) : VocabStore × LocalVocab :=
  ((freshSet st).1,
    { primary := (freshSet st).2, others := vs.flatMap fun v => v.others ++ [v.primary] })

/-- `LocalVocab::mergeWith` (LocalVocab.h lines 120-127): appends, for each
input vocabulary, its "other" sets and then its primary set to this
vocabulary's "other" sets; neither the inputs nor any word set is touched. -/
def mergeWith (V : LocalVocab) (vs : List LocalVocab) : LocalVocab :=
  { V with others := V.others ++ vs.flatMap fun v => v.others ++ [v.primary] }

theorem buildHashMap_eq_filter (jc : Nat) (T : IdTable) (k : Id) :
    buildHashMap jc T k = T.filter fun r => getKey jc r == k := by
  induction T with
  | nil => rfl
  | cons r rs ih =>
      rw [buildHashMap, List.filter_cons, ih]
      by_cases h : getKey jc r = k <;> simp [h]

theorem filterMap_match_eq_map_filter (jc1 jc2 : Nat) (ra : Row) (B : IdTable) :
    (B.filterMap fun rb =>
        if getKey jc1 ra = getKey jc2 rb then some (combineRows jc2 ra rb) else none) =
      (B.filter fun rb => getKey jc1 ra == getKey jc2 rb).map fun rb => combineRows jc2 ra rb := by
  induction B with
  | nil => rfl
  | cons rb bs ih =>
      rw [List.filterMap_cons, List.filter_cons, ih]
      by_cases h : getKey jc1 ra = getKey jc2 rb <;> simp [h]

/-! ### Sortedness bridge -/

/-- The adjacent-comparison check `sortedOn` is equivalent to the pairwise
ordering of all keys. -/
theorem sortedOn_iff_pairwise {jc : Nat} {T : IdTable} :
    sortedOn jc T = true ↔ List.Pairwise (fun r s => getKey jc r ≤ getKey jc s) T := by
  induction T with
  | nil => simp [sortedOn]
  | cons x xs ih =>
      cases xs with
      | nil => simp [sortedOn]
      | cons y ys =>
          rw [sortedOn, Bool.and_eq_true, decide_eq_true_iff, ih,
            List.pairwise_cons (a := x), List.pairwise_cons (a := y)]
          constructor
          · rintro ⟨hxy, hall, hys⟩
            refine ⟨?_, hall, hys⟩
            intro z hz
            rcases List.mem_cons.mp hz with rfl | hz
            · exact hxy
            · exact le_trans hxy (hall z hz)
          · rintro ⟨hx, hall, hys⟩
            exact ⟨hx y (List.mem_cons_self _ _), hall, hys⟩

theorem sortedOn_of_sublist {jc : Nat} {S T : IdTable} (hsub : S.Sublist T)
    (hT : sortedOn jc T = true) : sortedOn jc S = true :=
  sortedOn_iff_pairwise.mpr ((sortedOn_iff_pairwise.mp hT).sublist hsub)

theorem sortedOn_head_le {jc : Nat} {x : Row} {xs : IdTable}
    (h : sortedOn jc (x :: xs) = true) : ∀ y ∈ xs, getKey jc x ≤ getKey jc y :=
  (List.pairwise_cons.mp (sortedOn_iff_pairwise.mp h)).1

theorem sortedOn_tail {jc : Nat} {x : Row} {xs : IdTable}
    (h : sortedOn jc (x :: xs) = true) : sortedOn jc xs = true :=
  sortedOn_iff_pairwise.mpr (List.pairwise_cons.mp (sortedOn_iff_pairwise.mp h)).2

/-! ### Equi-join rewriting lemmas -/

theorem flatMap_congr_of_mem {α β : Type} {l : List α} {f g : α → List β}
    (h : ∀ a ∈ l, f a = g a) : l.flatMap f = l.flatMap g := by
  induction l with
  | nil => rfl
  | cons x xs ih =>
      rw [List.flatMap_cons, List.flatMap_cons, h x (List.mem_cons_self _ _),
        ih fun a ha => h a (List.mem_cons_of_mem _ ha)]

theorem equiJoin_eq_flatMap (jc1 jc2 : Nat) (A B : IdTable) :
    equiJoin jc1 jc2 A B = A.flatMap fun ra => B.filterMap (rowMatcher jc1 jc2 ra) := rfl

theorem filterMap_rowMatcher_eq_nil {jc1 jc2 : Nat} {ra : Row} {L : IdTable}
    (h : ∀ rb ∈ L, getKey jc1 ra ≠ getKey jc2 rb) :
    L.filterMap (rowMatcher jc1 jc2 ra) = [] := by
  rw [List.filterMap_eq_nil_iff]
  intro rb hrb
  simp [rowMatcher, h rb hrb]

theorem filterMap_rowMatcher_all {jc1 jc2 : Nat} {ra : Row} {L : IdTable}
    (h : ∀ rb ∈ L, getKey jc1 ra = getKey jc2 rb) :
    L.filterMap (rowMatcher jc1 jc2 ra) = L.map fun rb => combineRows jc2 ra rb := by
  induction L with
  | nil => rfl
  | cons rb bs ih =>
      rw [List.filterMap_cons, List.map_cons, rowMatcher,
        if_pos (h rb (List.mem_cons_self _ _)),
        ih fun x hx => h x (List.mem_cons_of_mem _ hx)]

theorem equiJoin_skip_left {jc1 jc2 : Nat} {a : Row} {as B : IdTable}
    (h : ∀ rb ∈ B, getKey jc1 a ≠ getKey jc2 rb) :
    equiJoin jc1 jc2 (a :: as) B = equiJoin jc1 jc2 as B := by
  rw [equiJoin_eq_flatMap, List.flatMap_cons, filterMap_rowMatcher_eq_nil h,
    List.nil_append, ← equiJoin_eq_flatMap]

theorem equiJoin_skip_right {jc1 jc2 : Nat} {A P R : IdTable}
    (h : ∀ rb ∈ P, ∀ ra ∈ A, getKey jc1 ra ≠ getKey jc2 rb) :
    equiJoin jc1 jc2 A (P ++ R) = equiJoin jc1 jc2 A R := by
  rw [equiJoin_eq_flatMap, equiJoin_eq_flatMap]
  refine flatMap_congr_of_mem fun ra hra => ?_
  rw [List.filterMap_append,
    filterMap_rowMatcher_eq_nil fun rb hrb => h rb hrb ra hra, List.nil_append]

/-- Keys strictly above `k` on the suffix left by dropping the `k`-run of a
sorted table whose keys are all at least `k`. -/
theorem dropWhile_key_gt {jc k : Nat} {T : IdTable} (hs : sortedOn jc T = true)
    (hmin : ∀ r ∈ T, k ≤ getKey jc r) :
    ∀ r ∈ T.dropWhile (fun r => getKey jc r == k), k < getKey jc r := by
  induction T with
  | nil => simp
  | cons t ts ih =>
      by_cases ht : getKey jc t = k
      · rw [List.dropWhile_cons_of_pos (by simpa using ht)]
        exact ih (sortedOn_tail hs) fun r hr => hmin r (List.mem_cons_of_mem _ hr)
      · rw [List.dropWhile_cons_of_neg (by simpa using ht)]
        intro r hr
        rcases List.mem_cons.mp hr with rfl | hr
        · exact lt_of_le_of_ne (hmin r (List.mem_cons_self _ _)) fun h => ht h.symm
        · have h1 : k ≤ getKey jc t := hmin t (List.mem_cons_self _ _)
          have h2 : getKey jc t ≤ getKey jc r := sortedOn_head_le hs r hr
          omega

theorem takeWhile_key_eq {jc k : Nat} {T : IdTable} :
    ∀ r ∈ T.takeWhile (fun r => getKey jc r == k), getKey jc r = k := by
  intro r hr
  simpa using List.mem_takeWhile_imp hr

/-- On sorted inputs whose heads carry the same key, the equi-join splits into
the cross product of the two equal-key runs followed by the equi-join of the
remaining suffixes. -/
theorem equiJoin_run_split {jc1 jc2 : Nat} {a b : Row} {as bs : IdTable}
    (hA : sortedOn jc1 (a :: as) = true) (hB : sortedOn jc2 (b :: bs) = true)
    (hk : getKey jc2 b = getKey jc1 a) :
    equiJoin jc1 jc2 (a :: as) (b :: bs) =
      ((a :: as).takeWhile fun r => getKey jc1 r == getKey jc1 a).flatMap
          (fun ra => ((b :: bs).takeWhile fun r => getKey jc2 r == getKey jc1 a).map
            fun rb => combineRows jc2 ra rb)
        ++ equiJoin jc1 jc2 ((a :: as).dropWhile fun r => getKey jc1 r == getKey jc1 a)
            ((b :: bs).dropWhile fun r => getKey jc2 r == getKey jc1 a) := by
  set k := getKey jc1 a with hkdef
  set pA : Row → Bool := fun r => getKey jc1 r == k with hpA
  set pB : Row → Bool := fun r => getKey jc2 r == k with hpB
  have hminA : ∀ r ∈ a :: as, k ≤ getKey jc1 r := by
    intro r hr
    rcases List.mem_cons.mp hr with rfl | hr
    · omega
    · exact sortedOn_head_le hA r hr
  have hminB : ∀ r ∈ b :: bs, k ≤ getKey jc2 r := by
    intro r hr
    rcases List.mem_cons.mp hr with rfl | hr
    · omega
    · have := sortedOn_head_le hB r hr
      omega
  have hDA := dropWhile_key_gt (k := k) hA hminA
  have hDB := dropWhile_key_gt (k := k) hB hminB
  have e0 : equiJoin jc1 jc2 (a :: as) (b :: bs) =
      equiJoin jc1 jc2 ((a :: as).takeWhile pA ++ (a :: as).dropWhile pA)
        ((b :: bs).takeWhile pB ++ (b :: bs).dropWhile pB) := by
    rw [List.takeWhile_append_dropWhile, List.takeWhile_append_dropWhile]
  rw [e0, equiJoin_eq_flatMap, List.flatMap_append]
  have e1 : ((a :: as).takeWhile pA).flatMap
        (fun ra => (((b :: bs).takeWhile pB) ++ ((b :: bs).dropWhile pB)).filterMap
          (rowMatcher jc1 jc2 ra)) =
      ((a :: as).takeWhile pA).flatMap
        (fun ra => ((b :: bs).takeWhile pB).map fun rb => combineRows jc2 ra rb) := by
    refine flatMap_congr_of_mem fun ra hra => ?_
    have hka : getKey jc1 ra = k := takeWhile_key_eq ra hra
    rw [List.filterMap_append,
      filterMap_rowMatcher_all fun rb hrb => by
        rw [hka, takeWhile_key_eq rb hrb],
      filterMap_rowMatcher_eq_nil fun rb hrb => by
        have := hDB rb hrb
        omega,
      List.append_nil]
  have e2 : ((a :: as).dropWhile pA).flatMap
        (fun ra => (((b :: bs).takeWhile pB) ++ ((b :: bs).dropWhile pB)).filterMap
          (rowMatcher jc1 jc2 ra)) =
      equiJoin jc1 jc2 ((a :: as).dropWhile pA) ((b :: bs).dropWhile pB) := by
    rw [equiJoin_eq_flatMap]
    refine flatMap_congr_of_mem fun ra hra => ?_
    have hka : k < getKey jc1 ra := hDA ra hra
    rw [List.filterMap_append,
      filterMap_rowMatcher_eq_nil fun rb hrb => by
        have := takeWhile_key_eq rb hrb
        omega,
      List.nil_append]
  rw [e1, e2]

/-- Merge join computes the standard equi-join on inputs sorted on their join
columns (stated over a bound `n` on the total input size, for the strong
induction). -/
theorem mergeJoin_eq_equiJoin_aux (jc1 jc2 : Nat) :
    ∀ (n : Nat) (A B : IdTable), A.length + B.length = n →
      sortedOn jc1 A = true → sortedOn jc2 B = true →
      mergeJoin jc1 jc2 A B = equiJoin jc1 jc2 A B := by
  intro n
  induction n using Nat.strong_induction_on with
  | _ n ih =>
    intro A B hn hA hB
    cases A with
    | nil => simp [mergeJoin, equiJoin]
    | cons a as =>
      cases B with
      | nil => simp [mergeJoin, equiJoin]
      | cons b bs =>
        simp only [mergeJoin]
        by_cases h1 : getKey jc1 a < getKey jc2 b
        · rw [dif_pos h1]
          have hskip : ∀ rb ∈ b :: bs, getKey jc1 a ≠ getKey jc2 rb := by
            intro rb hrb
            rcases List.mem_cons.mp hrb with rfl | hrb
            · omega
            · have := sortedOn_head_le hB rb hrb
              omega
          rw [equiJoin_skip_left hskip]
          exact ih (as.length + (b :: bs).length)
            (by simp only [List.length_cons] at hn ⊢; omega) as (b :: bs) rfl
            (sortedOn_tail hA) hB
        · by_cases h2 : getKey jc2 b < getKey jc1 a
          · rw [dif_neg h1, dif_pos h2]
            have hskip : ∀ rb ∈ [b], ∀ ra ∈ a :: as, getKey jc1 ra ≠ getKey jc2 rb := by
              intro rb hrb ra hra
              rcases List.mem_singleton.mp hrb with rfl
              rcases List.mem_cons.mp hra with rfl | hra
              · omega
              · have := sortedOn_head_le hA ra hra
                omega
            rw [show (b :: bs : IdTable) = [b] ++ bs from rfl, equiJoin_skip_right hskip]
            exact ih ((a :: as).length + bs.length)
              (by simp only [List.length_cons] at hn ⊢; omega) (a :: as) bs rfl
              hA (sortedOn_tail hB)
          · rw [dif_neg h1, dif_neg h2]
            have hk : getKey jc2 b = getKey jc1 a := by omega
            rw [equiJoin_run_split hA hB hk]
            congr 1
            exact ih (((a :: as).dropWhile fun r => getKey jc1 r == getKey jc1 a).length
                + ((b :: bs).dropWhile fun r => getKey jc2 r == getKey jc1 a).length)
              (by
                have hda : ((a :: as).dropWhile fun r => getKey jc1 r == getKey jc1 a).length
                    ≤ as.length := by
                  rw [List.dropWhile_cons_of_pos (by simp)]
                  exact (List.dropWhile_sublist _).length_le
                have hdb : ((b :: bs).dropWhile fun r => getKey jc2 r == getKey jc1 a).length
                    ≤ bs.length := by
                  rw [List.dropWhile_cons_of_pos
                    (p := fun r => getKey jc2 r == getKey jc1 a) (by simp [hk])]
                  exact (List.dropWhile_sublist _).length_le
                simp only [List.length_cons] at hn
                omega)
              _ _ rfl
              (sortedOn_of_sublist (List.dropWhile_sublist _) hA)
              (sortedOn_of_sublist (List.dropWhile_sublist _) hB)

/-- Merge join computes the standard equi-join on inputs sorted on their join
columns. -/
theorem mergeJoin_eq_equiJoin {jc1 jc2 : Nat} {A B : IdTable}
    (hA : sortedOn jc1 A = true) (hB : sortedOn jc2 B = true) :
    mergeJoin jc1 jc2 A B = equiJoin jc1 jc2 A B :=
  mergeJoin_eq_equiJoin_aux jc1 jc2 (A.length + B.length) A B rfl hA hB

/-! ### Hash join is a permutation of the equi-join -/

theorem flatMap_append_perm {α β : Type} (L : List α) (g h : α → List β) :
    (L.flatMap fun x => g x ++ h x).Perm (L.flatMap g ++ L.flatMap h) := by
  induction L with
  | nil => simp
  | cons x xs ih =>
      simp only [List.flatMap_cons]
      refine (ih.append_left (g x ++ h x)).trans ?_
      simp only [← List.append_assoc]
      refine List.Perm.append_right _ ?_
      rw [List.append_assoc, List.append_assoc]
      exact List.Perm.append_left _ List.perm_append_comm

theorem filterMap_cons_toList {α β : Type} (g : α → Option β) (a : α) (l : List α) :
    List.filterMap g (a :: l) = (g a).toList ++ List.filterMap g l := by
  cases h : g a <;> simp [List.filterMap_cons, h]

theorem filterMap_eq_flatMap_toList {α β : Type} (g : α → Option β) (l : List α) :
    List.filterMap g l = l.flatMap fun a => (g a).toList := by
  induction l with
  | nil => rfl
  | cons a l ih => rw [filterMap_cons_toList, List.flatMap_cons, ih]

/-- Exchanging the two nested loops of a filtered cross product is a
permutation of the output. -/
theorem flatMap_filterMap_swap_perm {α β γ : Type} (f : α → β → Option γ)
    (A : List α) (B : List β) :
    (B.flatMap fun b => A.filterMap fun a => f a b).Perm
      (A.flatMap fun a => B.filterMap fun b => f a b) := by
  induction A with
  | nil => simp
  | cons a as ih =>
      simp only [List.flatMap_cons]
      have e : (B.flatMap fun b => List.filterMap (fun x => f x b) (a :: as)) =
          B.flatMap fun b => (f a b).toList ++ List.filterMap (fun x => f x b) as :=
        flatMap_congr_of_mem fun b _ => filterMap_cons_toList _ _ _
      rw [e]
      refine (flatMap_append_perm B _ _).trans ?_
      rw [← filterMap_eq_flatMap_toList]
      exact ih.append_left _

theorem buildHashMap_probe_eq (jc1 jc2 : Nat) (rb : Row) (A : IdTable) :
    ((buildHashMap jc1 A (getKey jc2 rb)).map fun ra => combineRows jc2 ra rb) =
      A.filterMap fun ra => rowMatcher jc1 jc2 ra rb := by
  induction A with
  | nil => rfl
  | cons ra as ih =>
      rw [buildHashMap, List.filterMap_cons]
      by_cases h : getKey jc1 ra = getKey jc2 rb
      · rw [if_pos h, List.map_cons, ih, rowMatcher, if_pos h]
      · rw [if_neg h, ih, rowMatcher, if_neg h]

theorem buildHashMap_build_eq (jc1 jc2 : Nat) (ra : Row) (B : IdTable) :
    ((buildHashMap jc2 B (getKey jc1 ra)).map fun rb => combineRows jc2 ra rb) =
      B.filterMap (rowMatcher jc1 jc2 ra) := by
  induction B with
  | nil => rfl
  | cons rb bs ih =>
      rw [buildHashMap, List.filterMap_cons]
      by_cases h : getKey jc2 rb = getKey jc1 ra
      · rw [if_pos h, List.map_cons, ih, rowMatcher, if_pos h.symm]
      · rw [if_neg h, ih, rowMatcher, if_neg fun hc => h hc.symm]

/-- The hash join output is the equi-join up to row order, for all inputs. -/
theorem hashJoin_perm_equiJoin (jc1 jc2 : Nat) (A B : IdTable) :
    (hashJoin jc1 jc2 A B).Perm (equiJoin jc1 jc2 A B) := by
  rw [hashJoin, equiJoin_eq_flatMap]
  by_cases hlen : A.length ≤ B.length
  · rw [if_pos hlen]
    have e : (B.flatMap fun rb => (buildHashMap jc1 A (getKey jc2 rb)).map
          fun ra => combineRows jc2 ra rb) =
        B.flatMap fun rb => A.filterMap fun ra => rowMatcher jc1 jc2 ra rb :=
      flatMap_congr_of_mem fun rb _ => buildHashMap_probe_eq jc1 jc2 rb A
    rw [e]
    exact flatMap_filterMap_swap_perm (rowMatcher jc1 jc2) A B
  · rw [if_neg hlen]
    have e : (A.flatMap fun ra => (buildHashMap jc2 B (getKey jc1 ra)).map
          fun rb => combineRows jc2 ra rb) =
        A.flatMap fun ra => B.filterMap (rowMatcher jc1 jc2 ra) :=
      flatMap_congr_of_mem fun ra _ => buildHashMap_build_eq jc1 jc2 ra B
    rw [e]

/-- If every row of the first `m` positions has its key below `k`, dropping the
below-`k` prefix ignores those positions. -/
theorem dropWhile_eq_dropWhile_drop {p : Row → Bool} {T : IdTable} {m : Nat}
    (h : ∀ r ∈ T.take m, p r = true) :
    T.dropWhile p = (T.drop m).dropWhile p := by
  conv_lhs => rw [← List.take_append_drop m T]
  rw [List.dropWhile_append, List.dropWhile_eq_nil_iff.mpr h]
  simp

/-- On a sorted table, galloping search agrees with the linear scan: it drops
exactly the rows with key below `k`. -/
theorem gallopDropLess_eq_dropWhile (jc k : Nat) :
    ∀ (n : Nat) (T : IdTable) (s : Nat), T.length = n → sortedOn jc T = true →
      gallopDropLess jc k T s = T.dropWhile fun r => decide (getKey jc r < k) := by
  intro n
  induction n using Nat.strong_induction_on with
  | _ n ih =>
    intro T s hn hT
    rw [gallopDropLess]
    split
    · rfl
    · rename_i r l h
      split
      · rename_i hr
        have hlen : s < T.length := by
          have := congrArg List.length h
          simp only [List.length_drop, List.length_cons] at this
          omega
        rw [ih (T.drop (s + 1)).length (by simp only [List.length_drop]; omega) _ _ rfl
          (sortedOn_of_sublist (List.drop_sublist _ _) hT)]
        refine (dropWhile_eq_dropWhile_drop ?_).symm
        have hts : T.take (s + 1) = T.take s ++ [r] := by
          rw [List.take_succ]
          have : T[s]? = some r := by
            rw [← List.head?_drop, h]
            rfl
          rw [this]
          rfl
        rw [hts]
        have hsort : sortedOn jc (T.take s ++ [r]) = true := by
          rw [← hts]
          exact sortedOn_of_sublist (List.take_sublist _ _) hT
        have hpair := sortedOn_iff_pairwise.mp hsort
        rw [List.pairwise_append] at hpair
        intro x hx
        rcases List.mem_append.mp hx with hx | hx
        · have := hpair.2.2 x hx r (List.mem_singleton_self _)
          simp only [decide_eq_true_iff]
          omega
        · rcases List.mem_singleton.mp hx with rfl
          simpa using hr
      · rfl

/-- Galloping join computes the standard equi-join on inputs sorted on their
join columns (stated over a bound `n` on the total input size, for the strong
induction). -/
theorem gallopJoin_eq_equiJoin_aux (jc1 jc2 : Nat) :
    ∀ (n : Nat) (A B : IdTable), A.length + B.length = n →
      sortedOn jc1 A = true → sortedOn jc2 B = true →
      gallopJoin jc1 jc2 A B = equiJoin jc1 jc2 A B := by
  intro n
  induction n using Nat.strong_induction_on with
  | _ n ih =>
    intro A B hn hA hB
    cases A with
    | nil => simp [gallopJoin, equiJoin]
    | cons a as =>
      cases B with
      | nil => simp [gallopJoin, equiJoin]
      | cons b bs =>
        simp only [gallopJoin]
        by_cases h1 : getKey jc1 a < getKey jc2 b
        · rw [dif_pos h1]
          have hskip : ∀ rb ∈ b :: bs, getKey jc1 a ≠ getKey jc2 rb := by
            intro rb hrb
            rcases List.mem_cons.mp hrb with rfl | hrb
            · omega
            · have := sortedOn_head_le hB rb hrb
              omega
          rw [equiJoin_skip_left hskip]
          exact ih (as.length + (b :: bs).length)
            (by simp only [List.length_cons] at hn ⊢; omega) as (b :: bs) rfl
            (sortedOn_tail hA) hB
        · by_cases h2 : getKey jc2 b < getKey jc1 a
          · rw [dif_neg h1, dif_pos h2,
              gallopDropLess_eq_dropWhile jc2 (getKey jc1 a) (b :: bs).length (b :: bs) 1
                rfl hB]
            have hskip : ∀ rb ∈ (b :: bs).takeWhile fun r => decide (getKey jc2 r < getKey jc1 a),
                ∀ ra ∈ a :: as, getKey jc1 ra ≠ getKey jc2 rb := by
              intro rb hrb ra hra
              have hlt : getKey jc2 rb < getKey jc1 a := by
                simpa using List.mem_takeWhile_imp hrb
              rcases List.mem_cons.mp hra with rfl | hra
              · omega
              · have := sortedOn_head_le hA ra hra
                omega
            conv_rhs =>
              rw [← List.takeWhile_append_dropWhile
                (fun r => decide (getKey jc2 r < getKey jc1 a)) (b :: bs)]
            rw [equiJoin_skip_right hskip]
            refine ih
              ((a :: as).length
                + ((b :: bs).dropWhile fun r => decide (getKey jc2 r < getKey jc1 a)).length)
              ?_ _ _ rfl hA (sortedOn_of_sublist (List.dropWhile_sublist _) hB)
            have hdb : ((b :: bs).dropWhile fun r => decide (getKey jc2 r < getKey jc1 a)).length
                ≤ bs.length := by
              rw [List.dropWhile_cons_of_pos (by simpa using h2)]
              exact (List.dropWhile_sublist _).length_le
            simp only [List.length_cons] at hn ⊢
            omega
          · rw [dif_neg h1, dif_neg h2]
            have hk : getKey jc2 b = getKey jc1 a := by omega
            rw [equiJoin_run_split hA hB hk]
            congr 1
            exact ih (((a :: as).dropWhile fun r => getKey jc1 r == getKey jc1 a).length
                + ((b :: bs).dropWhile fun r => getKey jc2 r == getKey jc1 a).length)
              (by
                have hda : ((a :: as).dropWhile fun r => getKey jc1 r == getKey jc1 a).length
                    ≤ as.length := by
                  rw [List.dropWhile_cons_of_pos (by simp)]
                  exact (List.dropWhile_sublist _).length_le
                have hdb : ((b :: bs).dropWhile fun r => getKey jc2 r == getKey jc1 a).length
                    ≤ bs.length := by
                  rw [List.dropWhile_cons_of_pos
                    (p := fun r => getKey jc2 r == getKey jc1 a) (by simp [hk])]
                  exact (List.dropWhile_sublist _).length_le
                simp only [List.length_cons] at hn
                omega)
              _ _ rfl
              (sortedOn_of_sublist (List.dropWhile_sublist _) hA)
              (sortedOn_of_sublist (List.dropWhile_sublist _) hB)

/-- Galloping join computes the standard equi-join on sorted inputs. -/
theorem gallopJoin_eq_equiJoin {jc1 jc2 : Nat} {A B : IdTable}
    (hA : sortedOn jc1 A = true) (hB : sortedOn jc2 B = true) :
    gallopJoin jc1 jc2 A B = equiJoin jc1 jc2 A B :=
  gallopJoin_eq_equiJoin_aux jc1 jc2 (A.length + B.length) A B rfl hA hB


/-- The combined row reads the left row's key at the left join column, as long
as that column is within the left row's width. -/
theorem getKey_combineRows {jc1 jc2 : Nat} {ra : Row} (rb : Row) (h : jc1 < ra.length) :
    getKey jc1 (combineRows jc2 ra rb) = getKey jc1 ra := by
  rw [combineRows, getKey, getKey, List.getD_append _ _ _ _ h]

theorem pairwise_keys_flatMap {jcOut jcP : Nat} (P : List Row) (f : Row → List Row)
    (hkeys : ∀ p ∈ P, ∀ q ∈ f p, getKey jcOut q = getKey jcP p)
    (hP : List.Pairwise (fun r s => getKey jcP r ≤ getKey jcP s) P) :
    List.Pairwise (fun r s => getKey jcOut r ≤ getKey jcOut s) (P.flatMap f) := by
  induction P with
  | nil => simp
  | cons p ps ih =>
      rw [List.flatMap_cons, List.pairwise_append]
      rcases List.pairwise_cons.mp hP with ⟨hple, hps⟩
      refine ⟨?_, ih (fun x hx => hkeys x (List.mem_cons_of_mem _ hx)) hps, ?_⟩
      · refine List.pairwise_of_forall_mem_list fun x hx y hy => ?_
        rw [hkeys p (List.mem_cons_self _ _) x hx, hkeys p (List.mem_cons_self _ _) y hy]
      · intro x hx y hy
        rcases List.mem_flatMap.mp hy with ⟨q, hq, hyq⟩
        rw [hkeys p (List.mem_cons_self _ _) x hx, hkeys q (List.mem_cons_of_mem _ hq) y hyq]
        exact hple q hq

theorem mem_buildHashMap {jc k : Nat} {r : Row} {T : IdTable}
    (h : r ∈ buildHashMap jc T k) : r ∈ T ∧ getKey jc r = k := by
  rw [buildHashMap_eq_filter] at h
  have := List.mem_filter.mp h
  exact ⟨this.1, by simpa using this.2⟩

/-- C2 (amended): if the probed (larger) side of a hash join is sorted on its
join column, the output is sorted on the (left) join column; the converse of
the claimed equivalence fails (see the counterexample).  The width hypothesis
says the left join column indexes a real column of the left table. -/
theorem hashJoin_sorted_of_probe_sorted {jc1 jc2 w : Nat} {A B : IdTable}
    (hW : hasWidth w A = true) (hjc : jc1 < w)
    (hprobe : probeSideSorted jc1 jc2 A B = true) :
    sortedOn jc1 (hashJoin jc1 jc2 A B) = true := by
  have hwidth : ∀ r ∈ A, r.length = w := by
    intro r hr
    have := List.all_eq_true.mp hW r hr
    simpa using this
  rw [hashJoin]
  rw [probeSideSorted] at hprobe
  by_cases hlen : A.length ≤ B.length
  · rw [if_pos hlen]
    rw [if_pos hlen] at hprobe
    rw [sortedOn_iff_pairwise]
    refine pairwise_keys_flatMap B _ ?_ (sortedOn_iff_pairwise.mp hprobe)
    intro rb hrb q hq
    rcases List.mem_map.mp hq with ⟨ra, hra, rfl⟩
    rcases mem_buildHashMap hra with ⟨hmem, hkey⟩
    rw [getKey_combineRows rb (by rw [hwidth ra hmem]; exact hjc), hkey]
  · rw [if_neg hlen]
    rw [if_neg hlen] at hprobe
    rw [sortedOn_iff_pairwise]
    refine pairwise_keys_flatMap A _ ?_ (sortedOn_iff_pairwise.mp hprobe)
    intro ra hra q hq
    rcases List.mem_map.mp hq with ⟨rb, hrb, rfl⟩
    exact getKey_combineRows rb (by rw [hwidth ra hra]; exact hjc)


/-- C3 (amended): with multiplicity 1 on both sides and both children
non-empty, the size estimate computed and cached on the first request equals
the product (not the minimum) of the two children's row-count estimates,
following the spec's stated formula. -/
theorem getSizeEstimate_mult_one (j : JoinState) (l r : ChildEstimates)
    (hj : j.sizeEstimateComputed = false) (hl : l.mult = 1) (hr : r.mult = 1)
    (h1 : 1 ≤ l.rows) (h2 : 1 ≤ r.rows) :
    (getSizeEstimateBeforeLimit j l r).2 = l.rows * r.rows := by
  have hprod : 1 ≤ l.rows * r.rows := by nlinarith
  rw [getSizeEstimateBeforeLimit]
  rw [hj]
  simp only [Bool.not_false, if_pos, computeSizeEstimateAndMultiplicities, computeSizeEstimate,
    hl, hr]
  rw [if_pos (Or.inl (by intro h; rw [h] at h1; norm_num at h1))]
  simp only [max_self, div_one]
  exact max_eq_right hprod

/-! ### Basic facts about the embedding -/

theorem firstIdxOf_eq_none {w : Word} : ∀ {l : List Word}, firstIdxOf w l = none ↔ ¬ w ∈ l := by
  intro l
  induction l with
  | nil => simp [firstIdxOf]
  | cons x xs ih =>
      rw [firstIdxOf]
      by_cases h : x = w
      · simp [h]
      · rw [if_neg h, Option.map_eq_none', ih]
        constructor
        · intro hnot hmem
          rcases List.mem_cons.mp hmem with rfl | hmem
          · exact h rfl
          · exact hnot hmem
        · intro hnot hmem
          exact hnot (List.mem_cons_of_mem _ hmem)

theorem firstIdxOf_append_self {w : Word} {l : List Word} (h : firstIdxOf w l = none) :
    firstIdxOf w (l ++ [w]) = some l.length := by
  induction l with
  | nil => simp [firstIdxOf]
  | cons x xs ih =>
      rw [firstIdxOf] at h
      by_cases hx : x = w
      · rw [if_pos hx] at h
        exact absurd h (by simp)
      · rw [if_neg hx, Option.map_eq_none'] at h
        rw [List.cons_append, firstIdxOf, if_neg hx, ih h]
        rfl

theorem size_eq_sum (st : VocabStore) (V : LocalVocab) :
    LocalVocab.size st V =
      (getSet st V.primary).length + (V.others.map fun s => (getSet st s).length).sum := by
  rw [LocalVocab.size]
  generalize (getSet st V.primary).length = init
  induction V.others generalizing init with
  | nil => simp
  | cons s ss ih =>
      rw [List.foldl_cons, List.map_cons, List.sum_cons, ih]
      omega

theorem getSet_freshSet_lt (st : VocabStore) {s : SetId} (h : s < st.sets.length) :
    getSet (freshSet st).1 s = getSet st s := by
  rw [freshSet, getSet, getSet]
  exact List.getD_append _ _ _ _ h

theorem getSet_freshSet_self (st : VocabStore) :
    getSet (freshSet st).1 (freshSet st).2 = [] := by
  rw [freshSet, getSet, List.getD_eq_getElem?_getD, List.getElem?_concat_length]
  rfl

theorem getD_set_self {l : List (List Word)} {i : Nat} {x : List Word}
    (h : i < l.length) : (l.set i x).getD i [] = x := by
  rw [List.getD_eq_getElem?_getD, List.getElem?_set_self h]
  rfl

theorem getD_set_ne {l : List (List Word)} {i j : Nat} {x : List Word}
    (h : i ≠ j) : (l.set i x).getD j [] = l.getD j [] := by
  rw [List.getD_eq_getElem?_getD, List.getElem?_set_ne h, ← List.getD_eq_getElem?_getD]

/-- Case analysis of a successful intern: either the word was found in the
primary set (store untouched), or it was appended to the primary set and its
footprint charged. -/
theorem getIndexAndAdd_ok_cases {st st1 : VocabStore} {V : LocalVocab} {w : Word}
    {idx : LocalVocabIndex}
    (h : getIndexAndAddIfNotContained st V w = (st1, Except.ok idx)) :
    (firstIdxOf w (getSet st V.primary) = some idx.2 ∧ idx.1 = V.primary ∧ st1 = st)
    ∨ (firstIdxOf w (getSet st V.primary) = none ∧ wordSize w ≤ st.memLeft
        ∧ idx = (V.primary, (getSet st V.primary).length)
        ∧ st1.sets = st.sets.set V.primary (getSet st V.primary ++ [w])
        ∧ st1.memLeft = st.memLeft - wordSize w) := by
  rw [getIndexAndAddIfNotContained, setIntern] at h
  cases hfi : firstIdxOf w (getSet st V.primary) with
  | some i =>
      rw [hfi] at h
      simp only [Prod.mk.injEq, Except.ok.injEq] at h
      exact Or.inl ⟨by rw [← h.2], by rw [← h.2], h.1.symm⟩
  | none =>
      rw [hfi] at h
      by_cases hfit : wordSize w ≤ st.memLeft
      · rw [if_pos hfit] at h
        simp only [Prod.mk.injEq, Except.ok.injEq] at h
        refine Or.inr ⟨rfl, hfit, h.2.symm, ?_, ?_⟩
        · rw [← h.1]
        · rw [← h.1]
      · rw [if_neg hfit] at h
        simp at h

/-- C4: interning a not-yet-contained value whose memory charge exceeds the
remaining shared budget fails with the out-of-memory error, and the store is
returned unmodified: no value added, no index issued, no memory charged. -/
theorem setIntern_oom (st : VocabStore) (sid : SetId) (w : Word)
    (hnew : ¬ w ∈ getSet st sid) (hmem : st.memLeft < wordSize w) :
    setIntern st sid w = (st, Except.error ()) := by
  rw [setIntern, firstIdxOf_eq_none.mpr hnew]
  rw [if_neg (by omega)]

theorem getSet_after_intern_primary {st st1 : VocabStore} {V : LocalVocab} {w : Word}
    {idx : LocalVocabIndex} (hwf : V.primary < st.sets.length)
    (h : getIndexAndAddIfNotContained st V w = (st1, Except.ok idx))
    (hnew : firstIdxOf w (getSet st V.primary) = none) :
    getSet st1 V.primary = getSet st V.primary ++ [w] := by
  rcases getIndexAndAdd_ok_cases h with ⟨hfi, _, _⟩ | ⟨_, _, _, hsets, _⟩
  · rw [hnew] at hfi
    exact absurd hfi (by simp)
  · rw [getSet, hsets, getD_set_self hwf]

theorem getSet_after_intern_other {st st1 : VocabStore} {V : LocalVocab} {w : Word}
    {idx : LocalVocabIndex} {s : SetId} (hne : s ≠ V.primary)
    (h : getIndexAndAddIfNotContained st V w = (st1, Except.ok idx)) :
    getSet st1 s = getSet st s := by
  rcases getIndexAndAdd_ok_cases h with ⟨_, _, rfl⟩ | ⟨_, _, _, hsets, _⟩
  · rfl
  · rw [getSet, hsets, getD_set_ne fun hc => hne hc.symm, getSet]

/-- C8: interning is idempotent: after a successful intern, interning the same
word again returns the same index and leaves the store unchanged; and a single
intern grows the vocabulary size by at most one. -/
theorem getIndexAndAdd_dedup (st st1 : VocabStore) (V : LocalVocab) (w : Word)
    (idx : LocalVocabIndex) (hwf : V.primary < st.sets.length)
    (hsep : ¬ V.primary ∈ V.others)
    (h : getIndexAndAddIfNotContained st V w = (st1, Except.ok idx)) :
    getIndexAndAddIfNotContained st1 V w = (st1, Except.ok idx)
    ∧ LocalVocab.size st1 V ≤ LocalVocab.size st V + 1 := by
  rcases getIndexAndAdd_ok_cases h with ⟨hfi, hp, rfl⟩ | ⟨hfi, hfit, hidx, hsets, _⟩
  · constructor
    · simp only [getIndexAndAddIfNotContained, setIntern, hfi]
      rw [Prod.mk.injEq]
      exact ⟨rfl, by rw [← hp]⟩
    · omega
  · have hprim : getSet st1 V.primary = getSet st V.primary ++ [w] :=
      getSet_after_intern_primary hwf h hfi
    constructor
    · simp only [getIndexAndAddIfNotContained, setIntern, hprim,
        firstIdxOf_append_self hfi]
      rw [hidx]
    · rw [size_eq_sum, size_eq_sum, hprim]
      have hothers : (V.others.map fun s => (getSet st1 s).length)
          = V.others.map fun s => (getSet st s).length := by
        refine List.map_congr_left fun s hs => ?_
        rw [getSet_after_intern_other (fun hc => hsep (hc ▸ hs)) h]
      rw [hothers]
      simp only [List.length_append, List.length_cons, List.length_nil]
      omega

/-- C9: lookup searches the primary set only: a word absent from the primary
set is not found (even if present in an "other" set), and after a successful
intern, lookup of the interned word returns exactly the index the intern
returned. -/
theorem getIndexOrNullopt_spec (st st1 : VocabStore) (V : LocalVocab) (w : Word)
    (idx : LocalVocabIndex) (hwf : V.primary < st.sets.length) :
    (¬ w ∈ getSet st V.primary → getIndexOrNullopt st V w = none)
    ∧ (getIndexAndAddIfNotContained st V w = (st1, Except.ok idx) →
        getIndexOrNullopt st1 V w = some idx) := by
  constructor
  · intro h
    rw [getIndexOrNullopt, firstIdxOf_eq_none.mpr h]
    rfl
  · intro h
    rcases getIndexAndAdd_ok_cases h with ⟨hfi, hp, rfl⟩ | ⟨hfi, hfit, hidx, hsets, _⟩
    · simp only [getIndexOrNullopt, hfi, Option.map_some']
      rw [Option.some.injEq]
      rw [← hp]
    · have hprim : getSet st1 V.primary = getSet st V.primary ++ [w] :=
        getSet_after_intern_primary hwf h hfi
      simp only [getIndexOrNullopt, hprim, firstIdxOf_append_self hfi, Option.map_some']
      rw [hidx]

theorem resolve_some_imp {st : VocabStore} {V : LocalVocab} {idx : LocalVocabIndex}
    {w : Word} (h : resolve st V idx = some w) :
    (idx.1 = V.primary ∨ idx.1 ∈ V.others) ∧ (getSet st idx.1)[idx.2]? = some w := by
  rw [resolve] at h
  by_cases hc : idx.1 = V.primary ∨ idx.1 ∈ V.others
  · rw [if_pos hc] at h
    exact ⟨hc, h⟩
  · rw [if_neg hc] at h
    exact absurd h (by simp)

theorem sum_lengths_flatMap (st : VocabStore) (vs : List LocalVocab)
    (hwf : ∀ v ∈ vs, wfVocab st v) :
    (((vs.flatMap fun v => v.others ++ [v.primary]).map
        fun s => (getSet st s).length).sum)
      = (vs.map fun v => LocalVocab.size st v).sum := by
  induction vs with
  | nil => simp
  | cons v vs ih =>
      rw [List.flatMap_cons, List.map_append, List.sum_append, List.map_cons, List.sum_cons,
        ih fun x hx => hwf x (List.mem_cons_of_mem _ hx), List.map_append, List.sum_append,
        size_eq_sum]
      simp only [List.map_cons, List.map_nil, List.sum_cons, List.sum_nil]
      omega

/-- C5: `merge` of two vocabularies: the merged size is the sum of the two
input sizes, the merged vocabulary's own primary set is empty, and every index
resolvable against either input resolves to the same word (the same set at the
same position) against the merged vocabulary. -/
theorem merge_pair_spec (st : VocabStore) (V1 V2 : LocalVocab)
    (h1 : wfVocab st V1) (h2 : wfVocab st V2) :
    LocalVocab.size (merge st [V1, V2]).1 (merge st [V1, V2]).2
        = LocalVocab.size st V1 + LocalVocab.size st V2
    ∧ getSet (merge st [V1, V2]).1 (merge st [V1, V2]).2.primary = []
    ∧ (∀ idx w, resolve st V1 idx = some w ∨ resolve st V2 idx = some w →
        resolve (merge st [V1, V2]).1 (merge st [V1, V2]).2 idx = some w) := by
  have hfresh : ∀ {s : SetId}, s < st.sets.length →
      getSet (merge st [V1, V2]).1 s = getSet st s := by
    intro s hs
    exact getSet_freshSet_lt st hs
  have hmem_lt : ∀ {V : LocalVocab}, wfVocab st V →
      ∀ {s : SetId}, s = V.primary ∨ s ∈ V.others → s < st.sets.length := by
    intro V hV s hs
    rcases hs with rfl | hs
    · exact hV.1
    · exact hV.2 s hs
  refine ⟨?_, ?_, ?_⟩
  · rw [size_eq_sum]
    have hp : getSet (merge st [V1, V2]).1 (merge st [V1, V2]).2.primary = [] :=
      getSet_freshSet_self st
    rw [hp]
    have hsets : ((merge st [V1, V2]).2.others.map
          fun s => (getSet (merge st [V1, V2]).1 s).length)
        = (merge st [V1, V2]).2.others.map fun s => (getSet st s).length := by
      refine List.map_congr_left fun s hs => ?_
      rw [merge] at hs
      simp only [List.flatMap_cons, List.flatMap_nil, List.append_nil] at hs
      rcases List.mem_append.mp hs with hs | hs
      · rcases List.mem_append.mp hs with hs | hs
        · exact congrArg List.length (hfresh (h1.2 s hs))
        · rcases List.mem_singleton.mp hs with rfl
          exact congrArg List.length (hfresh h1.1)
      · rcases List.mem_append.mp hs with hs | hs
        · exact congrArg List.length (hfresh (h2.2 s hs))
        · rcases List.mem_singleton.mp hs with rfl
          exact congrArg List.length (hfresh h2.1)
    rw [hsets]
    show 0 + (((([V1, V2] : List LocalVocab).flatMap fun v => v.others ++ [v.primary]).map
        fun s => (getSet st s).length).sum) = _
    rw [sum_lengths_flatMap st [V1, V2] (by
      intro v hv
      rcases List.mem_cons.mp hv with rfl | hv
      · exact h1
      · rcases List.mem_singleton.mp hv with rfl
        exact h2)]
    simp only [List.map_cons, List.map_nil, List.sum_cons, List.sum_nil]
    omega
  · exact getSet_freshSet_self st
  · intro idx w hres
    have hin : (idx.1 = V1.primary ∨ idx.1 ∈ V1.others)
        ∨ (idx.1 = V2.primary ∨ idx.1 ∈ V2.others) := by
      rcases hres with hres | hres
      · exact Or.inl (resolve_some_imp hres).1
      · exact Or.inr (resolve_some_imp hres).1
    have hlt : idx.1 < st.sets.length := by
      rcases hin with hin | hin
      · exact hmem_lt h1 hin
      · exact hmem_lt h2 hin
    have hget : (getSet st idx.1)[idx.2]? = some w := by
      rcases hres with hres | hres
      · exact (resolve_some_imp hres).2
      · exact (resolve_some_imp hres).2
    have hmem : idx.1 ∈ (merge st [V1, V2]).2.others := by
      rw [merge]
      simp only [List.flatMap_cons, List.flatMap_nil, List.append_nil, List.mem_append,
        List.mem_singleton]
      tauto
    rw [resolve, if_pos (Or.inr hmem), hfresh hlt]
    exact hget

/-- C6: `clone` has the same size as the source, every index resolvable
against the source resolves to the same word against the clone, and interning
a not-previously-contained word into the clone leaves the source's size
unchanged. -/
theorem clone_spec (st : VocabStore) (V : LocalVocab) (h : wfVocab st V) :
    LocalVocab.size (clone st V).1 (clone st V).2 = LocalVocab.size st V
    ∧ (∀ idx w, resolve st V idx = some w →
        resolve (clone st V).1 (clone st V).2 idx = some w)
    ∧ (∀ w st2 idx, ¬ w ∈ getSet (clone st V).1 (clone st V).2.primary →
        getIndexAndAddIfNotContained (clone st V).1 (clone st V).2 w
          = (st2, Except.ok idx) →
        LocalVocab.size st2 V = LocalVocab.size st V) := by
  have hfreshlt : ∀ {s : SetId}, s < st.sets.length →
      getSet (clone st V).1 s = getSet st s := by
    intro s hs
    exact getSet_freshSet_lt st hs
  refine ⟨?_, ?_, ?_⟩
  · rw [size_eq_sum, size_eq_sum]
    have hp : getSet (clone st V).1 (clone st V).2.primary = [] := getSet_freshSet_self st
    rw [hp]
    show 0 + ((V.others ++ [V.primary]).map fun s => (getSet (clone st V).1 s).length).sum = _
    have hsets : ((V.others ++ [V.primary]).map fun s => (getSet (clone st V).1 s).length)
        = (V.others ++ [V.primary]).map fun s => (getSet st s).length := by
      refine List.map_congr_left fun s hs => ?_
      rcases List.mem_append.mp hs with hs | hs
      · exact congrArg List.length (hfreshlt (h.2 s hs))
      · rcases List.mem_singleton.mp hs with rfl
        exact congrArg List.length (hfreshlt h.1)
    rw [hsets, List.map_append, List.sum_append]
    simp only [List.map_cons, List.map_nil, List.sum_cons, List.sum_nil]
    omega
  · intro idx w hres
    rcases resolve_some_imp hres with ⟨hin, hget⟩
    have hlt : idx.1 < st.sets.length := by
      rcases hin with he | hin
      · rw [he]
        exact h.1
      · exact h.2 idx.1 hin
    have hmem : idx.1 ∈ (clone st V).2.others := by
      rw [clone]
      simp only [List.mem_append, List.mem_singleton]
      tauto
    rw [resolve, if_pos (Or.inr hmem), hfreshlt hlt]
    exact hget
  · intro w st2 idx _ hok
    have hsize1 : LocalVocab.size (clone st V).1 V = LocalVocab.size st V := by
      rw [size_eq_sum, size_eq_sum, hfreshlt h.1]
      have : (V.others.map fun s => (getSet (clone st V).1 s).length)
          = V.others.map fun s => (getSet st s).length :=
        List.map_congr_left fun s hs => congrArg List.length (hfreshlt (h.2 s hs))
      rw [this]
    have hprimne : ∀ s ∈ V.primary :: V.others, s ≠ (clone st V).2.primary := by
      intro s hs
      have hlt : s < st.sets.length := by
        rcases List.mem_cons.mp hs with rfl | hs
        · exact h.1
        · exact h.2 s hs
      show s ≠ st.sets.length
      exact Nat.ne_of_lt hlt
    have hV2 : ∀ s ∈ V.primary :: V.others, getSet st2 s = getSet (clone st V).1 s := by
      intro s hs
      exact getSet_after_intern_other (hprimne s hs) hok
    rw [size_eq_sum, hV2 V.primary (List.mem_cons_self _ _)]
    have : (V.others.map fun s => (getSet st2 s).length)
        = V.others.map fun s => (getSet (clone st V).1 s).length :=
      List.map_congr_left fun s hs =>
        congrArg List.length (hV2 s (List.mem_cons_of_mem _ hs))
    rw [this, ← size_eq_sum, hsize1]

/-- C10: `mergeWith` appends, for each input in argument order, its "other"
sets and then its primary set to this vocabulary's "other" sets; the primary
set is untouched and the size grows by exactly the sum of the input sizes.
The store is not an argument of `mergeWith` at all, so no word set — in
particular no input vocabulary's set — is modified. -/
theorem mergeWith_spec (st : VocabStore) (V : LocalVocab) (vs : List LocalVocab)
    (hwf : ∀ v ∈ vs, wfVocab st v) :
    (mergeWith V vs).primary = V.primary
    ∧ (mergeWith V vs).others = V.others ++ vs.flatMap (fun v => v.others ++ [v.primary])
    ∧ LocalVocab.size st (mergeWith V vs)
        = LocalVocab.size st V + (vs.map fun v => LocalVocab.size st v).sum := by
  refine ⟨rfl, rfl, ?_⟩
  rw [size_eq_sum, size_eq_sum, mergeWith]
  simp only [List.map_append, List.sum_append]
  rw [sum_lengths_flatMap st vs hwf]
  omega

/-! ## Claim theorems, witnesses and counterexamples -/

/-- C7: when either child reports a known-empty result, `computeResult`
short-circuits to the empty table without selecting any join algorithm. -/
theorem computeResult_known_empty (l r : Child) (jc1 jc2 : Nat)
    (h : knownEmptyResult l r = true) :
    computeResult l r jc1 jc2 = ([], none) := by
  rw [computeResult, if_pos h]

/-- C7 witness: a concrete join with a known-empty left child. -/
theorem computeResult_known_empty_witness :
    knownEmptyResult ⟨[[1]], true, false, false⟩ ⟨[], false, false, false⟩ = true
    ∧ computeResult ⟨[[1]], true, false, false⟩ ⟨[], false, false, false⟩ 0 0 = ([], none) :=
  ⟨by decide, computeResult_known_empty _ _ 0 0 (by decide)⟩

/-- C1: for every pair of row tables and every choice of join columns, the
multiset of output rows of each algorithm path — the hash join on arbitrary
inputs, and the merge join, the galloping join, the sorted-input dispatcher
`joinSorted`, and the two index-scan-specialized paths on inputs sorted on
their join columns (the only inputs those paths are selected for) — equals the
standard relational equi-join of the two tables on those columns. -/
theorem join_algorithms_match_equiJoin (jc1 jc2 : Nat) (A B : IdTable) :
    ((hashJoin jc1 jc2 A B : Multiset Row) = (equiJoin jc1 jc2 A B : Multiset Row))
    ∧ (sortedOn jc1 A = true → sortedOn jc2 B = true →
        ((mergeJoin jc1 jc2 A B : Multiset Row) = (equiJoin jc1 jc2 A B : Multiset Row))
        ∧ ((gallopJoin jc1 jc2 A B : Multiset Row) = (equiJoin jc1 jc2 A B : Multiset Row))
        ∧ ((joinSorted jc1 jc2 A B : Multiset Row) = (equiJoin jc1 jc2 A B : Multiset Row))
        ∧ ((computeResultForTwoIndexScans jc1 jc2 A B : Multiset Row)
            = (equiJoin jc1 jc2 A B : Multiset Row))
        ∧ ((computeResultForIndexScanAndIdTable true B jc2 A jc1 : Multiset Row)
            = (equiJoin jc1 jc2 A B : Multiset Row))
        ∧ ((computeResultForIndexScanAndIdTable false A jc1 B jc2 : Multiset Row)
            = (equiJoin jc1 jc2 A B : Multiset Row))) := by
  refine ⟨Multiset.coe_eq_coe.mpr (hashJoin_perm_equiJoin jc1 jc2 A B), fun hA hB => ?_⟩
  have hm : mergeJoin jc1 jc2 A B = equiJoin jc1 jc2 A B := mergeJoin_eq_equiJoin hA hB
  have hg : gallopJoin jc1 jc2 A B = equiJoin jc1 jc2 A B := gallopJoin_eq_equiJoin hA hB
  have hjs : joinSorted jc1 jc2 A B = equiJoin jc1 jc2 A B := by
    rw [joinSorted]
    by_cases hsw : A.length * gallopThreshold < B.length
    · rw [if_pos hsw, hg]
    · rw [if_neg hsw, hm]
  have hts : computeResultForTwoIndexScans jc1 jc2 A B = equiJoin jc1 jc2 A B := by
    rw [computeResultForTwoIndexScans, hm]
  have hsl : computeResultForIndexScanAndIdTable true B jc2 A jc1 = equiJoin jc1 jc2 A B := by
    rw [computeResultForIndexScanAndIdTable, if_pos rfl, hm]
  have hsr : computeResultForIndexScanAndIdTable false A jc1 B jc2 = equiJoin jc1 jc2 A B := by
    rw [computeResultForIndexScanAndIdTable, if_neg (by simp), hm]
  exact ⟨congrArg _ hm, congrArg _ hg, congrArg _ hjs, congrArg _ hts,
    congrArg _ hsl, congrArg _ hsr⟩

/-- C1 witness: the spec's example tables, sorted on column 0, joined on the
first column. -/
theorem join_algorithms_match_equiJoin_witness :
    sortedOn 0 [[1, 10], [1, 11], [2, 12]] = true
    ∧ sortedOn 0 [[1, 20], [3, 21]] = true
    ∧ ((mergeJoin 0 0 [[1, 10], [1, 11], [2, 12]] [[1, 20], [3, 21]] : Multiset Row)
        = (equiJoin 0 0 [[1, 10], [1, 11], [2, 12]] [[1, 20], [3, 21]] : Multiset Row)) :=
  ⟨by decide, by decide,
    ((join_algorithms_match_equiJoin 0 0 [[1, 10], [1, 11], [2, 12]] [[1, 20], [3, 21]]).2
      (by decide) (by decide)).1⟩

/-- C2 counterexample: the claimed "if and only if" fails: with build side
`[[0]]` and unsorted probe side `[[5], [3]]` (the larger input, probed), no
keys match, so the output is empty and trivially sorted while the probed input
is not sorted. -/
theorem hashJoin_sorted_iff_cex :
    sortedOn 0 (hashJoin 0 0 [[0]] [[5], [3]]) = true
    ∧ probeSideSorted 0 0 [[0]] [[5], [3]] = false := by
  exact ⟨by decide, by decide⟩

/-- C2 witness: a width-1 build side and a sorted two-row probe side. -/
theorem hashJoin_sorted_of_probe_sorted_witness :
    hasWidth 1 [[0]] = true ∧ (0 : Nat) < 1
    ∧ probeSideSorted 0 0 [[0]] [[3], [5]] = true
    ∧ sortedOn 0 (hashJoin 0 0 [[0]] [[3], [5]]) = true :=
  ⟨by decide, by decide, by decide,
    hashJoin_sorted_of_probe_sorted (w := 1) (by decide) (by decide) (by decide)⟩

/-- C3 counterexample: children with row-count estimates 2 and 3 and join
multiplicity 1 on both sides: the formula's estimate is the product 6, not the
smaller row count 2. -/
theorem getSizeEstimate_mult_one_cex :
    (getSizeEstimateBeforeLimit ⟨false, 0⟩ ⟨2, 1⟩ ⟨3, 1⟩).2 = 6
    ∧ min (2 : ℚ) 3 = 2 := by
  constructor
  · norm_num [getSizeEstimateBeforeLimit, computeSizeEstimateAndMultiplicities,
      computeSizeEstimate]
  · norm_num

/-- C3 witness: the amended statement at row counts 2 and 3, multiplicities
1. -/
theorem getSizeEstimate_mult_one_witness :
    (⟨false, 0⟩ : JoinState).sizeEstimateComputed = false
    ∧ (getSizeEstimateBeforeLimit ⟨false, 0⟩ ⟨2, 1⟩ ⟨3, 1⟩).2 = 2 * 3 :=
  ⟨rfl, getSizeEstimate_mult_one ⟨false, 0⟩ ⟨2, 1⟩ ⟨3, 1⟩ rfl rfl rfl
    (by norm_num) (by norm_num)⟩

/-- C4 witness: a store with 2 bytes left and a 3-byte value. -/
theorem setIntern_oom_witness :
    ¬ "abc" ∈ getSet ⟨[[]], 2⟩ 0
    ∧ (⟨[[]], 2⟩ : VocabStore).memLeft < wordSize "abc"
    ∧ setIntern ⟨[[]], 2⟩ 0 "abc" = (⟨[[]], 2⟩, Except.error ()) :=
  ⟨by decide, by decide, setIntern_oom ⟨[[]], 2⟩ 0 "abc" (by decide) (by decide)⟩

/-- C5 witness: merging a one-word and a two-word vocabulary. -/
theorem merge_pair_spec_witness :
    wfVocab ⟨[["a"], ["b", "c"]], 100⟩ ⟨0, []⟩
    ∧ wfVocab ⟨[["a"], ["b", "c"]], 100⟩ ⟨1, []⟩
    ∧ LocalVocab.size (merge ⟨[["a"], ["b", "c"]], 100⟩ [⟨0, []⟩, ⟨1, []⟩]).1
        (merge ⟨[["a"], ["b", "c"]], 100⟩ [⟨0, []⟩, ⟨1, []⟩]).2
      = LocalVocab.size ⟨[["a"], ["b", "c"]], 100⟩ ⟨0, []⟩
        + LocalVocab.size ⟨[["a"], ["b", "c"]], 100⟩ ⟨1, []⟩ :=
  ⟨by decide, by decide,
    (merge_pair_spec ⟨[["a"], ["b", "c"]], 100⟩ ⟨0, []⟩ ⟨1, []⟩ (by decide) (by decide)).1⟩

/-- C6 witness: cloning a one-word vocabulary. -/
theorem clone_spec_witness :
    wfVocab ⟨[["a"]], 10⟩ ⟨0, []⟩
    ∧ LocalVocab.size (clone ⟨[["a"]], 10⟩ ⟨0, []⟩).1 (clone ⟨[["a"]], 10⟩ ⟨0, []⟩).2
      = LocalVocab.size ⟨[["a"]], 10⟩ ⟨0, []⟩ :=
  ⟨by decide, (clone_spec ⟨[["a"]], 10⟩ ⟨0, []⟩ (by decide)).1⟩

/-- C8 witness: interning "a" into an empty vocabulary and then again. -/
theorem getIndexAndAdd_dedup_witness :
    getIndexAndAddIfNotContained ⟨[[]], 100⟩ ⟨0, []⟩ "a"
      = (⟨[["a"]], 99⟩, Except.ok (0, 0))
    ∧ getIndexAndAddIfNotContained ⟨[["a"]], 99⟩ ⟨0, []⟩ "a"
      = (⟨[["a"]], 99⟩, Except.ok (0, 0))
    ∧ LocalVocab.size ⟨[["a"]], 99⟩ ⟨0, []⟩ ≤ LocalVocab.size ⟨[[]], 100⟩ ⟨0, []⟩ + 1 :=
  ⟨rfl,
    (getIndexAndAdd_dedup ⟨[[]], 100⟩ ⟨[["a"]], 99⟩ ⟨0, []⟩ "a" (0, 0)
      (by decide) (by decide) rfl).1,
    (getIndexAndAdd_dedup ⟨[[]], 100⟩ ⟨[["a"]], 99⟩ ⟨0, []⟩ "a" (0, 0)
      (by decide) (by decide) rfl).2⟩

/-- C9 witness: "b" lives only in an "other" set, so lookup is absent; after
interning "a", lookup returns the intern's index. -/
theorem getIndexOrNullopt_spec_witness :
    ¬ "b" ∈ getSet ⟨[[], ["b"]], 100⟩ 0
    ∧ getIndexOrNullopt ⟨[[], ["b"]], 100⟩ ⟨0, [1]⟩ "b" = none
    ∧ getIndexOrNullopt ⟨[["a"], ["b"]], 99⟩ ⟨0, [1]⟩ "a" = some (0, 0) :=
  ⟨by decide,
    (getIndexOrNullopt_spec ⟨[[], ["b"]], 100⟩ ⟨[[], ["b"]], 100⟩ ⟨0, [1]⟩ "b" (0, 0)
      (by decide)).1 (by decide),
    (getIndexOrNullopt_spec ⟨[[], ["b"]], 100⟩ ⟨[["a"], ["b"]], 99⟩ ⟨0, [1]⟩ "a" (0, 0)
      (by decide)).2 rfl⟩

/-- C10 witness: merging a two-word vocabulary into a one-word vocabulary in
place. -/
theorem mergeWith_spec_witness :
    LocalVocab.size ⟨[["a"], ["b", "c"]], 100⟩ (mergeWith ⟨0, []⟩ [⟨1, []⟩])
      = LocalVocab.size ⟨[["a"], ["b", "c"]], 100⟩ ⟨0, []⟩
        + (([⟨1, []⟩] : List LocalVocab).map
            fun v => LocalVocab.size ⟨[["a"], ["b", "c"]], 100⟩ v).sum :=
  (mergeWith_spec ⟨[["a"], ["b", "c"]], 100⟩ ⟨0, []⟩ [⟨1, []⟩] (by decide)).2.2

end QLever
